import Mathlib

/-!
Verification of the save-file codec and mutation engine of the
borderlands2 save editor, shallowly embedded in Lean 4.

Python sources embedded here:
- borderlands/datautil/common.py   (rotate_data_left/right, xor_data)
- borderlands/datautil/protobuf.py (read_varint, write_varint)
- borderlands/savefile.py          (item codec, challenge codec,
                                    level / backpack / challenge mutations,
                                    player-data prechecks)

Bytes are modelled as lists of naturals (each byte < 256); Python's
unbounded integers are Nat/Int; Python bytes-vs-str comparison and the
struct module's fixed-width packing are modelled explicitly where they
matter.  All definitions are computable so that concrete inputs can be
evaluated by decide/rfl.
-/

namespace Borderlands

/-! ## Byte-sequence helpers (little-endian / big-endian integer views) -/

/-- Value of a byte list, first byte least significant (little-endian). -/
def ofLE : List Nat → Nat
  | [] => 0
  | b :: rest => b + 256 * ofLE rest

/-- Little-endian byte list of length c for a value n (low bytes first),
mirroring how struct packs fixed-width unsigned integers. -/
def toLE : Nat → Nat → List Nat
  | 0, _ => []
  | c + 1, n => (n % 256) :: toLE c (n / 256)

/-- Big-endian bytes of width c, as produced by struct with a "greater-than"
byte-order prefix. -/
def beBytes (c n : Nat) : List Nat := (toLE c n).reverse

/-- Value of a byte list read big-endian (first byte most significant). -/
def ofBE (l : List Nat) : Nat := l.foldl (fun acc b => acc * 256 + b) 0

/-! ## common.py: byte rotation and the keyed XOR stream -/

/-- Source rotate_data_right: data[-steps:] + data[:-steps] after steps %= len(data).
When steps % len == 0 the Python slices give data[0:] + data[:0] == data, hence
the explicit zero case. Rotation is by BYTE positions. -/
def rotate_data_right (data : List Nat) (steps : Nat) : List Nat :=
  if steps % data.length = 0 then data
  else data.drop (data.length - steps % data.length) ++
    data.take (data.length - steps % data.length)

/-- Source rotate_data_left: data[steps:] + data[:steps] after steps %= len(data).
Rotation is by BYTE positions. -/
def rotate_data_left (data : List Nat) (steps : Nat) : List Nat :=
  data.drop (steps % data.length) ++ data.take (steps % data.length)

/-- Python key & 0xFFFFFFFF on a (possibly negative) int is the mathematical
residue mod 2^32 (Lean's Int emod is non-negative for a positive modulus). -/
def pyUInt32 (key : Int) : Nat := (key % 4294967296).toNat

/-- Python's arithmetic right shift k >> n on a signed int: floor division by
2^n, written exactly since the numerator is a multiple of 2^n. -/
def pyShr (k : Int) (n : Nat) : Int := (k - k % (2 : Int) ^ n) / (2 : Int) ^ n

/-- One step of the multiplicative congruential key stream of xor_data. -/
def xorStep (k : Nat) : Nat := k * 279470273 % 4294967291

/-- Byte-wise loop of xor_data: advance the key, then mask the XOR to a byte
with & 0xFF. -/
def xorGo : Nat → List Nat → List Nat
  | _, [] => []
  | k, c :: rest =>
    ((c ^^^ xorStep k) &&& 255) :: xorGo (xorStep k) rest

/-- Source xor_data(data, key): key &= 0xFFFFFFFF, then for each byte advance
key = key * 279470273 % 4294967291 and emit (c ^ key) & 0xFF. -/
def xor_data (data : List Nat) (key : Int) : List Nat :=
  xorGo (pyUInt32 key) data

/-! ## protobuf.py: varints -/

/-- Source write_varint: emit 7 bits per byte, continuation bit 0x80 while
more than 0x7F remains; final byte carries the rest. -/
def write_varint (i : Nat) : List Nat :=
  if h : 127 < i then (128 ||| (i &&& 127)) :: write_varint (i >>> 7)
  else [i]
termination_by i
decreasing_by
  rw [Nat.shiftRight_eq_div_pow]
  exact Nat.div_lt_self (by omega) (by norm_num)

/-- Source read_varint, reading from a byte list instead of a stream: accumulate
(b & 0x7F) << offset until a byte without the 0x80 continuation bit; running
off the end of the input is an error (ord of an empty read raises). -/
def readVarintGo : List Nat → Nat → Nat → Option (Nat × List Nat)
  | [], _, _ => none
  | b :: rest, value, offset =>
    if b &&& 128 = 0 then some (value ||| ((b &&& 127) <<< offset), rest)
    else readVarintGo rest (value ||| ((b &&& 127) <<< offset)) (offset + 7)

def read_varint (l : List Nat) : Option (Nat × List Nat) := readVarintGo l 0 0

/-! ## binascii.crc32 (IEEE CRC-32, reflected polynomial 0xEDB88320) -/

def crc32Round (c : Nat) : Nat :=
  if c % 2 = 1 then (c >>> 1) ^^^ 3988292384 else c >>> 1

def crc32ByteRounds : Nat → Nat → Nat
  | 0, c => c
  | k + 1, c => crc32ByteRounds k (crc32Round c)

def crc32Update (crc b : Nat) : Nat := crc32ByteRounds 8 (crc ^^^ b)

/-- binascii.crc32(data) & 0xFFFFFFFF: the zlib CRC-32. -/
def crc32 (data : List Nat) : Nat :=
  (data.foldl crc32Update 4294967295) ^^^ 4294967295

/-! ## savefile.py: bit-packed item codec -/

/-- App.item_sizes indexed by is_weapon: the 17 field bit widths. -/
def item_sizes (is_weapon : Nat) : List Nat :=
  if is_weapon = 0 then [8, 17, 20, 11, 7, 7, 16, 16, 16, 16, 16, 16, 16, 16, 16, 16, 16]
  else [8, 13, 20, 11, 7, 7, 17, 17, 17, 17, 17, 17, 17, 17, 17, 17, 17]

/-- Inner loop of pack_item_values with a structural fuel: while value != 0,
OR the low byte into itembytes[j] (& 0xFF is % 256), shift right 8 (/ 256),
advance j.  The fuel only makes the recursion structural: each iteration has
v / 256 < v, so starting the fuel at v (see orInto) means the zero-fuel case
is reached only when v = 0, where returning the buffer is what the loop does.
Python would raise IndexError past the 32-byte buffer; the theorems stay in
range. -/
def orIntoGo : Nat → List Nat → Nat → Nat → List Nat
  | 0, B, _, _ => B
  | fuel + 1, B, j, v =>
    if v = 0 then B
    else orIntoGo fuel (B.set j (B.getD j 0 ||| v % 256)) (j + 1) (v / 256)

def orInto (B : List Nat) (j v : Nat) : List Nat := orIntoGo v B j v

/-- Field loop of pack_item_values over zip(values, sizes): a None value breaks;
otherwise OR value << (i & 7) into the buffer starting at byte i >> 3 and
advance the bit cursor by the field width. -/
def packLoop : List (Option Nat × Nat) → Nat → List Nat → Nat × List Nat
  | [], i, B => (i, B)
  | (none, _) :: _, i, B => (i, B)
  | (some v, size) :: rest, i, B =>
    packLoop rest (i + size) (orInto B (i >>> 3) (v <<< (i &&& 7)))

/-- Source pack_item_values over an explicit width list: run the field loop on a
32-byte zero buffer, OR 0xFF << (i & 7) (masked to a byte) into the final
partial byte, and keep the first (i + 7) >> 3 bytes. -/
def packCore (sizes : List Nat) (values : List (Option Nat)) : List Nat :=
  let p := packLoop (values.zip sizes) 0 (List.replicate 32 0)
  let B2 := if p.1 &&& 7 ≠ 0 then
      p.2.set (p.1 >>> 3) (p.2.getD (p.1 >>> 3) 0 ||| ((255 <<< (p.1 &&& 7)) &&& 255))
    else p.2
  B2.take ((p.1 + 7) >>> 3)

def pack_item_values (is_weapon : Nat) (values : List (Option Nat)) : List Nat :=
  packCore (item_sizes is_weapon) values

/-- Python value & ~(0xFF << size) on a non-negative value: clear exactly the
bits [size, size + 8), i.e. keep the low size bits and everything from bit
size + 8 up. -/
def pyClearWindow (v size : Nat) : Nat :=
  v % 2 ^ size + 2 ^ (size + 8) * (v / 2 ^ (size + 8))

/-- Byte gather of unpack_item_values: for b in data[hi : lo - 1 : -1], i.e.
bytes hi down to lo inclusive, value = (value << 8) | b.  lo ≥ 1 at every call
site, and List.take clips exactly like the Python slice when hi = len(data). -/
def sliceValue (data : List Nat) (lo hi : Nat) : Nat :=
  (((data.drop lo).take (hi - lo + 1)).reverse).foldl (fun value b => (value <<< 8) ||| b) 0

/-- Field loop of unpack_item_values: when the field would run past the end,
append None and keep the cursor; otherwise gather the covering bytes, shift by
i & 7, clear the byte window above the field, and advance the cursor. -/
def unpackGo : List Nat → Nat → List Nat → Nat → List (Option Nat)
  | [], _, _, _ => []
  | size :: rest, i, data, endBits =>
    if endBits < i + size then none :: unpackGo rest i data endBits
    else
      some (pyClearWindow (sliceValue data (i >>> 3) ((i + size) >>> 3) >>> (i &&& 7)) size) ::
        unpackGo rest (i + size) data endBits

/-- Source unpack_item_values over an explicit width list: data = b' ' + data
prepends the 0x20 byte, the cursor starts at bit 8, end = len(data) * 8. -/
def unpackCore (sizes : List Nat) (data : List Nat) : List (Option Nat) :=
  unpackGo sizes 8 (32 :: data) ((32 :: data).length * 8)

def unpack_item_values (is_weapon : Nat) (data : List Nat) : List (Option Nat) :=
  unpackCore (item_sizes is_weapon) data

/-- struct.pack(">Bi", (is_weapon << 7) | item_struct_version, key): one flag
byte followed by the signed 32-bit key, two's complement big-endian. -/
def item_header (version is_weapon : Nat) (key : Int) : List Nat :=
  ((is_weapon <<< 7) ||| version) :: beBytes 4 (pyUInt32 key)

/-- The buffer obfuscated by wrap_item: the folded CRC-16 of
header | 0xFFFF | packed | 0xFF-padding-to-33-bytes, prepended to the packed
field bytes. -/
def wrap_item_prebody (version is_weapon : Nat) (values : List (Option Nat)) (key : Int) :
    List Nat :=
  let item := pack_item_values is_weapon values
  let padding := List.replicate (33 - item.length) 255
  let h := crc32 (item_header version is_weapon key ++ [255, 255] ++ item ++ padding)
  beBytes 2 (((h >>> 16) ^^^ h) &&& 65535) ++ item

/-- Source wrap_item: header, then the checksum-plus-packed buffer rotated left
by key & 31 BYTE positions and XORed with the stream keyed by key >> 5.
key & 31 on a signed int is the residue mod 32. -/
def wrap_item (version is_weapon : Nat) (values : List (Option Nat)) (key : Int) : List Nat :=
  item_header version is_weapon key ++
    xor_data (rotate_data_left (wrap_item_prebody version is_weapon values key)
      (key % 32).toNat) (pyShr key 5)

/-- struct.unpack(">i", ...) of 4 big-endian bytes: two's complement. -/
def unpackI32BE (l : List Nat) : Int :=
  if ofBE (l.take 4) < 2147483648 then (ofBE (l.take 4) : Int)
  else (ofBE (l.take 4) : Int) - 4294967296

/-- Source unwrap_item: read the flag byte and signed key from the first five
bytes, undo the XOR and the byte rotation, drop the two checksum bytes and
unpack.  The checksum is not verified here. -/
def unwrap_item (data : List Nat) : Nat × List (Option Nat) × Int :=
  let key := unpackI32BE (data.drop 1)
  let is_weapon := data.getD 0 0 >>> 7
  let raw := rotate_data_right (xor_data (data.drop 5) (pyShr key 5)) (key % 32).toNat
  (is_weapon, unpack_item_values is_weapon (raw.drop 2), key)

/-- Modelled from the spec: the spec says the checksum-plus-packed buffer is
"rotated left by key & 31 BITS".  The buffer is read as a big-endian bit
string, rotated left by that many bit positions, and written back to bytes.
The source rotates BYTE positions instead; this definition exists only to
compare the spec text against the code. -/
def specRotateLeftBits (d : List Nat) (steps : Nat) : List Nat :=
  beBytes d.length ((ofBE d * 2 ^ (steps % (8 * d.length))) % 2 ^ (8 * d.length) +
    ofBE d / 2 ^ (8 * d.length - steps % (8 * d.length)))

/-! ## savefile.py: challenge-log codec -/

structure ChallengeRec where
  id : Nat
  first_one : Nat
  total_value : Nat
  second_one : Nat
  previous_value : Nat
deriving DecidableEq

/-- struct pack of an unsigned short with the configured endianness. -/
def packU16 (bigendian : Bool) (n : Nat) : List Nat :=
  if bigendian then beBytes 2 n else toLE 2 n

/-- struct pack of an unsigned int with the configured endianness. -/
def packU32 (bigendian : Bool) (n : Nat) : List Nat :=
  if bigendian then beBytes 4 n else toLE 4 n

def readU16 (bigendian : Bool) (l : List Nat) : Nat :=
  if bigendian then ofBE (l.take 2) else ofLE (l.take 2)

def readU32 (bigendian : Bool) (l : List Nat) : Nat :=
  if bigendian then ofBE (l.take 4) else ofLE (l.take 4)

/-- struct.pack(endian + 'HBIBI', id, first_one, total_value, second_one,
previous_value): 12 bytes per challenge record. -/
def packChallengeRec (bigendian : Bool) (c : ChallengeRec) : List Nat :=
  packU16 bigendian c.id ++ [c.first_one % 256] ++ packU32 bigendian c.total_value ++
    [c.second_one % 256] ++ packU32 bigendian c.previous_value

/-- The per-challenge write loop of wrap_challenges. -/
def packChallengeList (bigendian : Bool) : List ChallengeRec → List Nat
  | [] => []
  | c :: rest => packChallengeRec bigendian c ++ packChallengeList bigendian rest

/-- Source wrap_challenges: header struct.pack(endian + 'IIH', unknown,
len(challenges) * 12 + 2, len(challenges)) followed by the records. -/
def wrap_challenges (bigendian : Bool) (unknown : Nat) (challenges : List ChallengeRec) :
    List Nat :=
  packU32 bigendian unknown ++ packU32 bigendian (challenges.length * 12 + 2) ++
    packU16 bigendian challenges.length ++ packChallengeList bigendian challenges

/-- struct.unpack(endian + 'HBIBI', data[idx : idx + 12]) as record fields. -/
def parseChallengeRec (bigendian : Bool) (l : List Nat) : ChallengeRec :=
  { id := readU16 bigendian l
    first_one := l.getD 2 0
    total_value := readU32 bigendian (l.drop 3)
    second_one := l.getD 7 0
    previous_value := readU32 bigendian (l.drop 8) }

/-- Source unwrap_challenges: unpack the ten header bytes (struct raises when
fewer are available), raise when size_in_bytes + 8 differs from the data
length, then raise when num_challenges * 12 differs from size_in_bytes - 2
(checked over the integers: Python subtraction does not truncate), then read
the twelve-byte records.  The Python messages interpolate the offending
numbers; fixed texts stand in for them here. -/
def unwrap_challenges (bigendian : Bool) (data : List Nat) :
    Except String (Nat × List ChallengeRec) :=
  if data.length < 10 then Except.error "challenge header needs 10 bytes"
  else
    let size_in_bytes := readU32 bigendian (data.drop 4)
    let num_challenges := readU16 bigendian (data.drop 8)
    if size_in_bytes + 8 ≠ data.length then
      Except.error "Challenge data reported size differs from the bytes found"
    else if (num_challenges * 12 : Int) ≠ (size_in_bytes : Int) - 2 then
      Except.error "Challenge count reported differs from the bytes found"
    else
      Except.ok (readU32 bigendian data,
        (List.range num_challenges).map (fun t => parseChallengeRec bigendian
          (data.drop (10 + t * 12))))

/-! ## savefile.py: level mutation -/

/-- App.required_xp: the hardcoded 80-entry XP table. -/
def required_xp : List Nat :=
  [0, 358, 1241, 2850, 5376, 8997, 13886, 20208, 28126, 37798,
   49377, 63016, 78861, 97061, 117757, 141092, 167206, 196238, 228322, 263595,
   302190, 344238, 389873, 439222, 492414, 549578, 610840, 676325, 746158, 820463,
   899363, 982980, 1071435, 1164850, 1263343, 1367034, 1476041, 1590483, 1710476, 1836137,
   1967582, 2104926, 2248285, 2397772, 2553501, 2715586, 2884139, 3059273, 3241098, 3429728,
   3625271, 3827840, 4037543, 4254491, 4478792, 4710556, 4949890, 5196902, 5451701, 5714393,
   5985086, 6263885, 6550897, 6846227, 7149982, 7462266, 7783184, 8112840, 8451340, 8798786,
   9155282, 9520931, 9895837, 10280103, 10673830, 11077120, 11490077, 11912801, 12345393,
   12787955]

/-- The level branch of modify_save on the (level, xp) pair: a requested level
out of 1..len(required_xp) prints an error and changes nothing; at the cap the
xp is forced to required_xp[-1] whenever it differs; below the cap the xp is
reset to the lower bound exactly when it lies outside
[required_xp[L-1], required_xp[L]); the level field is then set. -/
def modify_level (requested level xp : Nat) : Nat × Nat :=
  if requested < 1 ∨ required_xp.length < requested then (level, xp)
  else
    if requested = required_xp.length then
      (requested, if xp ≠ required_xp.getD (requested - 1) 0 then
        required_xp.getD (requested - 1) 0 else xp)
    else
      (requested, if xp < required_xp.getD (requested - 1) 0 ∨
          required_xp.getD requested 0 ≤ xp then
        required_xp.getD (requested - 1) 0 else xp)

/-! ## savefile.py: backpack mutation -/

def min_backpack_size : Nat := 12

def max_backpack_size : Nat := 39

/-- The user's --backpack request: the literal "max" or a number. -/
inductive BackpackArg where
  | maxRequest : BackpackArg
  | numRequest (n : Int) : BackpackArg

/-- Config.finish for backpack: "max" becomes max_backpack_size, numbers are
clamped into [min_backpack_size, max_backpack_size]. -/
def finish_backpack : BackpackArg → Nat
  | .maxRequest => max_backpack_size
  | .numRequest n =>
    if n > (max_backpack_size : Int) then max_backpack_size
    else if n < (min_backpack_size : Int) then min_backpack_size
    else n.toNat

/-- The backpack branch of modify_save on (stored size, SDU slot array):
sdu_size = int(math.ceil((size - 12) / 3.0)) (exact for the clamped sizes
Config.finish produces, hence the integer ceiling), the stored size becomes
12 + sdu_size * 3, and the black-market array becomes s[:7] + [sdu_size] + s[8:].
Returns (new stored size, sdu_size, new array). -/
def modify_backpack (size : Nat) (slots : List Nat) : Nat × Nat × List Nat :=
  let sdu_size := (size - min_backpack_size + 2) / 3
  (min_backpack_size + sdu_size * 3, sdu_size, slots.take 7 ++ [sdu_size] ++ slots.drop 8)

/-! ## savefile.py: challenge-value mutation -/

/-- Modelled from the spec: borderlands/challenges.py is not among the source
files.  Per the spec a catalog challenge carries a maximum value (get_max) and
an optional bonus (get_bonus); "the challenge has a bonus" is the Python
truthiness of its bonus field (present and non-zero). -/
structure CatalogChallenge where
  maxValue : Nat
  bonus : Option Nat

def CatalogChallenge.get_max (c : CatalogChallenge) : Nat := c.maxValue

def CatalogChallenge.get_bonus (c : CatalogChallenge) : Nat := c.bonus.getD 0

def CatalogChallenge.has_bonus (c : CatalogChallenge) : Bool :=
  match c.bonus with
  | none => false
  | some b => decide (b ≠ 0)

/-- The per-challenge body of the challenges branch of modify_save: zero sets
total := previous; max sets total := previous + get_max; bonus (when the
challenge has one) sets total := previous + get_bonus whenever zero or max was
requested or the current total is below that value.  Returns the resulting
total_value. -/
def apply_challenge_opts (do_zero do_max do_bonus : Bool) (cat : CatalogChallenge)
    (total_value previous_value : Nat) : Nat :=
  let tv1 := if do_zero then previous_value else total_value
  let tv2 := if do_max then previous_value + cat.get_max else tv1
  if do_bonus && cat.has_bonus then
    if do_max || do_zero || decide (tv2 < previous_value + cat.get_bonus) then
      previous_value + cat.get_bonus
    else tv2
  else tv2

/-! ## savefile.py: unwrap_player_data prechecks -/

/-- Python 3 semantics of the source test data[:4] == "CON ": a bytes value
compared for equality with a str is always False, whatever the bytes are (no
implicit decoding happens in Python 3). -/
def pyEqBytesStr (_data : List Nat) (_s : String) : Bool := false

/-- The message raised for a detected console host-container wrapper. -/
def con_diagnostic : String :=
  "You need to use a program like Horizon or Modio to extract the SaveGame.sav file first"

/-- The message raised when the SHA-1 digest check fails. -/
def invalid_save_diagnostic : String := "Invalid save file"

/-- Front of unwrap_player_data: first the CON wrapper test (as Python 3
evaluates it), then the SHA-1 digest comparison; the digest function itself is
an external collaborator passed as an argument.  Returns the diagnostic of the
first failing check, if any. -/
def unwrap_player_data_precheck (sha1 : List Nat → List Nat) (data : List Nat) :
    Option String :=
  if pyEqBytesStr (data.take 4) "CON " then some con_diagnostic
  else if data.take 20 ≠ sha1 (data.drop 20) then some invalid_save_diagnostic
  else none

/-! ## Specification scaffolding for the item-codec proofs -/

/-- Sum of a list of bit widths. -/
def sumBits : List Nat → Nat
  | [] => 0
  | s :: rest => s + sumBits rest

/-- Value of (value, width) fields packed least-significant-first in sequence. -/
def packNat : List (Nat × Nat) → Nat
  | [] => 0
  | (v, s) :: rest => v + 2 ^ s * packNat rest

/-- Multiplier of 2 ^ total contributed by the 0xFF padding bits that
pack_item_values sets above the packed fields. -/
def padFactor (tot : Nat) : Nat :=
  if tot % 8 = 0 then 0 else 2 ^ (8 - tot % 8) - 1

/-- Successive extraction of fields of the given widths from a packed value. -/
def extractAux : Nat → List Nat → List (Option Nat)
  | _, [] => []
  | n, s :: rest => some (n % 2 ^ s) :: extractAux (n / 2 ^ s) rest

/-! # Theorems -/

/-! ## Byte-view lemmas -/

theorem length_toLE (c n : Nat) : (toLE c n).length = c := by
  induction c generalizing n with
  | zero => rfl
  | succ c ih => simp [toLE, ih]

theorem length_beBytes (c n : Nat) : (beBytes c n).length = c := by
  simp [beBytes, length_toLE]

theorem toLE_bytes_lt (c n : Nat) : ∀ b ∈ toLE c n, b < 256 := by
  induction c generalizing n with
  | zero => intro b hb; simp [toLE] at hb
  | succ c ih =>
    intro b hb
    simp only [toLE, List.mem_cons] at hb
    rcases hb with rfl | hb
    · exact Nat.mod_lt _ (by norm_num)
    · exact ih (n / 256) b hb

theorem beBytes_bytes_lt (c n : Nat) : ∀ b ∈ beBytes c n, b < 256 := by
  intro b hb
  exact toLE_bytes_lt c n b (List.mem_reverse.mp hb)

theorem ofLE_toLE (c n : Nat) : ofLE (toLE c n) = n % 2 ^ (8 * c) := by
  induction c generalizing n with
  | zero => simp [toLE, ofLE, Nat.mod_one]
  | succ c ih =>
    have hpow : (2 : Nat) ^ (8 * (c + 1)) = 256 * 2 ^ (8 * c) := by
      rw [Nat.mul_add, Nat.pow_add]; ring
    rw [toLE, ofLE, ih, hpow, Nat.mod_mul]

theorem ofBE_reverse (l : List Nat) : ofBE l.reverse = ofLE l := by
  induction l with
  | nil => rfl
  | cons b rest ih =>
    have h : ofBE (rest.reverse ++ [b]) = ofBE rest.reverse * 256 + b := by
      simp [ofBE, List.foldl_append]
    simp only [List.reverse_cons, h, ih, ofLE]
    ring

theorem ofBE_beBytes (c n : Nat) : ofBE (beBytes c n) = n % 2 ^ (8 * c) := by
  rw [beBytes, ofBE_reverse, ofLE_toLE]

theorem ofLE_lt {l : List Nat} (h : ∀ b ∈ l, b < 256) :
    ofLE l < 2 ^ (8 * l.length) := by
  induction l with
  | nil => simp [ofLE]
  | cons b rest ih =>
    have hb : b < 256 := h b (by simp)
    have hr : ofLE rest < 2 ^ (8 * rest.length) :=
      ih (fun x hx => h x (by simp [hx]))
    have hpow : (2 : Nat) ^ (8 * (b :: rest).length) = 256 * 2 ^ (8 * rest.length) := by
      rw [List.length_cons, Nat.mul_add, Nat.pow_add]; ring
    rw [ofLE, hpow]
    calc b + 256 * ofLE rest < 256 + 256 * ofLE rest := by omega
      _ = 256 * (ofLE rest + 1) := by ring
      _ ≤ 256 * 2 ^ (8 * rest.length) := by
          exact Nat.mul_le_mul_left _ (by omega)

/-! ## Rotation lemmas -/

theorem rotate_right_rotate_left (d : List Nat) (s : Nat) (h : d ≠ []) :
    rotate_data_right (rotate_data_left d s) s = d := by
  have hn : 0 < d.length := List.length_pos.mpr h
  have hk : s % d.length < d.length := Nat.mod_lt _ hn
  by_cases hk0 : s % d.length = 0
  · simp [rotate_data_left, rotate_data_right, hk0]
  · have hlen : (rotate_data_left d s).length = d.length := by
      simp only [rotate_data_left, List.length_append, List.length_drop,
        List.length_take]
      omega
    have hdl : (d.drop (s % d.length)).length = d.length - s % d.length := by
      simp [List.length_drop]
    rw [rotate_data_right, hlen, if_neg hk0, rotate_data_left,
      List.drop_left' hdl, List.take_left' hdl, List.take_append_drop]

theorem mem_rotate_data_left {d : List Nat} {s : Nat} {b : Nat}
    (hb : b ∈ rotate_data_left d s) : b ∈ d := by
  rw [rotate_data_left] at hb
  rcases List.mem_append.mp hb with hb | hb
  · exact List.drop_subset _ _ hb
  · exact List.take_subset _ _ hb

/-! ## XOR-stream lemmas -/

theorem length_xorGo (k : Nat) (l : List Nat) : (xorGo k l).length = l.length := by
  induction l generalizing k with
  | nil => rfl
  | cons c rest ih => simp [xorGo, ih]

theorem length_xor_data (data : List Nat) (key : Int) :
    (xor_data data key).length = data.length := length_xorGo _ _

theorem xorGo_bytes_lt (k : Nat) (l : List Nat) : ∀ b ∈ xorGo k l, b < 256 := by
  induction l generalizing k with
  | nil => intro b hb; simp [xorGo] at hb
  | cons c rest ih =>
    intro b hb
    simp only [xorGo, List.mem_cons] at hb
    rcases hb with rfl | hb
    · have h : ((c ^^^ xorStep k) &&& 255) = (c ^^^ xorStep k) % 256 := by
        have h2 := Nat.and_pow_two_sub_one_eq_mod (c ^^^ xorStep k) 8
        norm_num at h2; exact h2
      rw [h]; exact Nat.mod_lt _ (by norm_num)
    · exact ih (xorStep k) b hb

theorem xorByte_invol {c k : Nat} (hc : c < 256) :
    (((c ^^^ k) &&& 255) ^^^ k) &&& 255 = c := by
  have h255 : (255 : Nat) = 2 ^ 8 - 1 := by norm_num
  apply Nat.eq_of_testBit_eq
  intro i
  rcases Nat.lt_or_ge i 8 with hi | hi
  · have ht : Nat.testBit 255 i = true := by
      rw [h255, Nat.testBit_two_pow_sub_one]; simp [hi]
    cases hcb : c.testBit i <;> cases hkb : k.testBit i <;>
      simp [Nat.testBit_and, Nat.testBit_xor, ht, hcb, hkb]
  · have ht : Nat.testBit 255 i = false := by
      rw [h255, Nat.testBit_two_pow_sub_one]; simp [Nat.not_lt.mpr hi]
    have hc2 : c < 2 ^ i :=
      lt_of_lt_of_le hc (by calc (256 : Nat) = 2 ^ 8 := by norm_num
        _ ≤ 2 ^ i := Nat.pow_le_pow_right (by norm_num) hi)
    simp [Nat.testBit_and, Nat.testBit_xor, ht, Nat.testBit_lt_two_pow hc2]

theorem xorGo_invol (k : Nat) (l : List Nat) (h : ∀ b ∈ l, b < 256) :
    xorGo k (xorGo k l) = l := by
  induction l generalizing k with
  | nil => rfl
  | cons c rest ih =>
    simp only [xorGo, List.cons.injEq]
    exact ⟨xorByte_invol (h c (by simp)),
      ih (xorStep k) (fun x hx => h x (by simp [hx]))⟩

theorem xor_data_invol (d : List Nat) (key : Int) (h : ∀ b ∈ d, b < 256) :
    xor_data (xor_data d key) key = d :=
  xorGo_invol _ _ h

/-! ## Varint lemmas -/

theorem and127_eq_mod (b : Nat) : b &&& 127 = b % 128 := by
  have h := Nat.and_pow_two_sub_one_eq_mod b 7
  norm_num at h; exact h

theorem and128_of_lt {b : Nat} (h : b < 128) : b &&& 128 = 0 := by
  apply Nat.eq_of_testBit_eq
  intro i
  simp only [Nat.testBit_and, Nat.zero_testBit]
  rcases eq_or_ne i 7 with rfl | hi
  · have hb : b < 2 ^ 7 := lt_of_lt_of_eq h (by norm_num)
    simp [Nat.testBit_lt_two_pow hb]
  · have h2 : Nat.testBit 128 i = false := by
      have h128 : (128 : Nat) = 2 ^ 7 := by norm_num
      rw [h128]
      exact Nat.testBit_two_pow_of_ne (Ne.symm hi)
    simp [h2]

theorem and128_of_cont {x : Nat} (hx : x < 128) : (128 + x) &&& 128 ≠ 0 := by
  intro h
  have h7 : ((128 + x) &&& 128).testBit 7 = false := by rw [h]; simp
  have h128 : (128 : Nat) = 2 ^ 7 := by norm_num
  have hb : (128 + x).testBit 7 = true := by
    have hx2 : 128 + x = 2 ^ 7 * 1 + x := by norm_num
    rw [hx2, Nat.testBit_mul_two_pow_add_eq]
    have hx3 : x < 2 ^ 7 := by norm_num; omega
    simp [Nat.testBit_lt_two_pow hx3]
  rw [Nat.testBit_and, hb, h128, Nat.testBit_two_pow] at h7
  simp at h7

theorem lor_eq_add_of_lt {value x : Nat} (offset : Nat) (hv : value < 2 ^ offset) :
    value ||| (x <<< offset) = value + x * 2 ^ offset := by
  rw [Nat.shiftLeft_eq, Nat.lor_comm, Nat.mul_comm x, ← Nat.mul_add_lt_is_or hv x]
  omega

theorem readVarintGo_write_varint :
    ∀ i value offset : Nat, ∀ rest : List Nat, value < 2 ^ offset →
      readVarintGo (write_varint i ++ rest) value offset =
        some (value + i * 2 ^ offset, rest) := by
  intro i
  induction i using Nat.strong_induction_on with
  | _ i ih =>
    intro value offset rest hv
    rw [write_varint]
    by_cases h : 127 < i
    · rw [dif_pos h]
      simp only [List.cons_append, readVarintGo]
      have hmod : i % 128 < 128 := Nat.mod_lt _ (by norm_num)
      have hm2 : i % 128 < 2 ^ 7 := lt_of_lt_of_eq hmod (by norm_num)
      have hb : (128 ||| (i &&& 127)) = 128 + i % 128 := by
        rw [and127_eq_mod]
        calc (128 : Nat) ||| i % 128 = 2 ^ 7 * 1 ||| i % 128 := by norm_num
          _ = 2 ^ 7 * 1 + i % 128 := (Nat.mul_add_lt_is_or hm2 1).symm
          _ = 128 + i % 128 := by norm_num
      rw [hb, if_neg (and128_of_cont hmod)]
      have hb127 : (128 + i % 128) &&& 127 = i % 128 := by
        rw [and127_eq_mod]; omega
      rw [hb127, lor_eq_add_of_lt offset hv]
      have hv2 : value + i % 128 * 2 ^ offset < 2 ^ (offset + 7) := by
        have hp : (2 : Nat) ^ (offset + 7) = 2 ^ offset * 128 := by
          rw [Nat.pow_add]
        rw [hp]
        calc value + i % 128 * 2 ^ offset < 2 ^ offset + 127 * 2 ^ offset := by
              have hmul : i % 128 * 2 ^ offset ≤ 127 * 2 ^ offset :=
                Nat.mul_le_mul_right _ (by omega)
              omega
          _ = 2 ^ offset * 128 := by ring
      have hlt : i >>> 7 < i := by
        rw [Nat.shiftRight_eq_div_pow]
        exact Nat.div_lt_self (by omega) (by norm_num)
      have hrec := ih (i >>> 7) hlt (value + i % 128 * 2 ^ offset) (offset + 7) rest hv2
      refine Eq.trans hrec ?_
      simp only [Option.some.injEq, Prod.mk.injEq, and_true]
      have hshr : i >>> 7 = i / 128 := by
        rw [Nat.shiftRight_eq_div_pow]
      have hpow : (2 : Nat) ^ (offset + 7) = 2 ^ offset * 128 := by
        rw [Nat.pow_add]
      have hsplit : i % 128 + 128 * (i / 128) = i := Nat.mod_add_div i 128
      calc value + i % 128 * 2 ^ offset + i >>> 7 * 2 ^ (offset + 7)
          = value + (i % 128 + 128 * (i / 128)) * 2 ^ offset := by
            rw [hshr, hpow]; ring
        _ = value + i * 2 ^ offset := by rw [hsplit]
    · rw [dif_neg h]
      simp only [List.cons_append, List.nil_append, readVarintGo]
      have hi : i < 128 := by omega
      rw [if_pos (and128_of_lt hi), and127_eq_mod, Nat.mod_eq_of_lt hi,
        lor_eq_add_of_lt offset hv]
      rfl

/-! ## Item-codec lemmas: bridges between Python bit operations and arithmetic -/

theorem and7_eq_mod (i : Nat) : i &&& 7 = i % 8 := by
  have h := Nat.and_pow_two_sub_one_eq_mod i 3
  norm_num at h; exact h

theorem shr3_eq_div (i : Nat) : i >>> 3 = i / 8 := by
  rw [Nat.shiftRight_eq_div_pow]

theorem and255_eq_mod (x : Nat) : x &&& 255 = x % 256 := by
  have h := Nat.and_pow_two_sub_one_eq_mod x 8
  norm_num at h; exact h

theorem ofLE_replicate_zero (n : Nat) : ofLE (List.replicate n 0) = 0 := by
  induction n with
  | zero => rfl
  | succ n ih => simp [List.replicate_succ, ofLE, ih]

theorem getD_eq_ofLE {B : List Nat} (h : ∀ b ∈ B, b < 256) (j : Nat) :
    B.getD j 0 = ofLE B / 2 ^ (8 * j) % 256 := by
  induction B generalizing j with
  | nil => simp [ofLE, Nat.zero_div, Nat.zero_mod]
  | cons b rest ih =>
    have hb : b < 256 := h b (by simp)
    have hrest : ∀ x ∈ rest, x < 256 := fun x hx => h x (by simp [hx])
    cases j with
    | zero =>
      simp only [List.getD_cons_zero, ofLE, Nat.mul_zero, Nat.pow_zero, Nat.div_one]
      rw [Nat.add_mul_mod_self_left, Nat.mod_eq_of_lt hb]
    | succ j =>
      have hpow : (2 : Nat) ^ (8 * (j + 1)) = 256 * 2 ^ (8 * j) := by
        rw [Nat.mul_add, Nat.pow_add]; ring
      rw [List.getD_cons_succ, ih hrest j, ofLE, hpow, ← Nat.div_div_eq_div_mul,
        Nat.add_mul_div_left _ _ (by norm_num : (0 : Nat) < 256),
        Nat.div_eq_of_lt hb, Nat.zero_add]

theorem ofLE_set {B : List Nat} (j x : Nat) (hj : j < B.length) :
    ofLE (B.set j x) + 2 ^ (8 * j) * B.getD j 0 = ofLE B + 2 ^ (8 * j) * x := by
  induction B generalizing j with
  | nil => simp at hj
  | cons b rest ih =>
    cases j with
    | zero => simp [ofLE, List.set]; ring
    | succ j =>
      have hj2 : j < rest.length := by simpa using hj
      have hpow : (2 : Nat) ^ (8 * (j + 1)) = 256 * 2 ^ (8 * j) := by
        rw [Nat.mul_add, Nat.pow_add]; ring
      calc ofLE ((b :: rest).set (j + 1) x) + 2 ^ (8 * (j + 1)) * (b :: rest).getD (j + 1) 0
          = b + 256 * (ofLE (rest.set j x) + 2 ^ (8 * j) * rest.getD j 0) := by
            simp only [List.set_cons_succ, List.getD_cons_succ, ofLE, hpow]; ring
        _ = b + 256 * (ofLE rest + 2 ^ (8 * j) * x) := by rw [ih j hj2]
        _ = ofLE (b :: rest) + 2 ^ (8 * (j + 1)) * x := by
            simp only [ofLE, hpow]; ring

theorem ofLE_take {B : List Nat} (h : ∀ b ∈ B, b < 256) (c : Nat) :
    ofLE (B.take c) = ofLE B % 2 ^ (8 * c) := by
  induction c generalizing B with
  | zero => simp [ofLE, Nat.mod_one]
  | succ c ih =>
    cases B with
    | nil => simp [ofLE]
    | cons b rest =>
      have hb : b < 256 := h b (by simp)
      have hrest : ∀ x ∈ rest, x < 256 := fun x hx => h x (by simp [hx])
      have hpow : (2 : Nat) ^ (8 * (c + 1)) = 256 * 2 ^ (8 * c) := by
        rw [Nat.mul_add, Nat.pow_add]; ring
      rw [List.take_succ_cons, ofLE, ih hrest, ofLE, hpow, Nat.mod_mul,
        Nat.add_mul_mod_self_left, Nat.mod_eq_of_lt hb,
        Nat.add_mul_div_left _ _ (by norm_num : (0 : Nat) < 256),
        Nat.div_eq_of_lt hb, Nat.zero_add]

theorem ofLE_drop {B : List Nat} (h : ∀ b ∈ B, b < 256) (c : Nat) :
    ofLE (B.drop c) = ofLE B / 2 ^ (8 * c) := by
  induction c generalizing B with
  | zero => simp
  | succ c ih =>
    cases B with
    | nil => simp [ofLE]
    | cons b rest =>
      have hb : b < 256 := h b (by simp)
      have hrest : ∀ x ∈ rest, x < 256 := fun x hx => h x (by simp [hx])
      have hpow : (2 : Nat) ^ (8 * (c + 1)) = 256 * 2 ^ (8 * c) := by
        rw [Nat.mul_add, Nat.pow_add]; ring
      rw [List.drop_succ_cons, ih hrest, ofLE, hpow, ← Nat.div_div_eq_div_mul,
        Nat.add_mul_div_left _ _ (by norm_num : (0 : Nat) < 256),
        Nat.div_eq_of_lt hb, Nat.zero_add]

theorem packNat_lt {ps : List (Nat × Nat)} (h : ∀ p ∈ ps, p.1 < 2 ^ p.2) :
    packNat ps < 2 ^ sumBits (ps.map Prod.snd) := by
  induction ps with
  | nil => simp [packNat, sumBits]
  | cons p rest ih =>
    obtain ⟨v, s⟩ := p
    have hv : v < 2 ^ s := h (v, s) (by simp)
    have hr : packNat rest < 2 ^ sumBits (rest.map Prod.snd) :=
      ih (fun q hq => h q (by simp [hq]))
    simp only [packNat, List.map_cons, sumBits, Nat.pow_add]
    calc v + 2 ^ s * packNat rest
        < 2 ^ s + 2 ^ s * packNat rest := by omega
      _ = 2 ^ s * (packNat rest + 1) := by ring
      _ ≤ 2 ^ s * 2 ^ sumBits (rest.map Prod.snd) := Nat.mul_le_mul_left _ (by omega)

/-! ## Item-codec lemmas: the packing loops -/

theorem multiple_byte_bound {x r : Nat} (hr : r ≤ 7) (hx : x % 2 ^ r = 0)
    (hx8 : x < 256) : x + 2 ^ r ≤ 256 := by
  have hq : x = 2 ^ r * (x / 2 ^ r) := by
    have h := Nat.div_add_mod x (2 ^ r)
    omega
  have hmul : (2 : Nat) ^ r * 2 ^ (8 - r) = 256 := by
    rw [← Nat.pow_add]
    have h8 : r + (8 - r) = 8 := by omega
    rw [h8]
  have hqlt : x / 2 ^ r < 2 ^ (8 - r) := by
    by_contra hq2
    push_neg at hq2
    have : 2 ^ r * 2 ^ (8 - r) ≤ 2 ^ r * (x / 2 ^ r) := Nat.mul_le_mul_left _ hq2
    omega
  calc x + 2 ^ r = 2 ^ r * (x / 2 ^ r + 1) := by rw [Nat.mul_add, Nat.mul_one]; omega
    _ ≤ 2 ^ r * 2 ^ (8 - r) := Nat.mul_le_mul_left _ (by omega)
    _ = 256 := hmul

/-- Setting byte j of a buffer to its OR with a byte-multiple of 2 ^ r adds
2 ^ (8 j) * x to the little-endian value, provided all bits at and above
position 8 j + r are clear. -/
theorem ofLE_set_or {B : List Nat} {j r x : Nat} (hB : ∀ b ∈ B, b < 256)
    (hr : r ≤ 7) (hlt : ofLE B < 2 ^ (8 * j + r)) (hx : x % 2 ^ r = 0)
    (hx8 : x < 256) (hj : j < B.length) :
    (∀ b ∈ B.set j (B.getD j 0 ||| x), b < 256) ∧
      ofLE (B.set j (B.getD j 0 ||| x)) = ofLE B + 2 ^ (8 * j) * x := by
  have hdiv : ofLE B / 2 ^ (8 * j) < 2 ^ r := by
    rw [Nat.div_lt_iff_lt_mul (Nat.two_pow_pos _)]
    calc ofLE B < 2 ^ (8 * j + r) := hlt
      _ = 2 ^ r * 2 ^ (8 * j) := by rw [← Nat.pow_add]; congr 1; omega
  have hold : B.getD j 0 = ofLE B / 2 ^ (8 * j) := by
    rw [getD_eq_ofLE hB j]
    exact Nat.mod_eq_of_lt (lt_of_lt_of_le hdiv
      (le_trans (Nat.pow_le_pow_right (by norm_num) hr) (by norm_num)))
  have holdr : B.getD j 0 < 2 ^ r := by rw [hold]; exact hdiv
  have hor : B.getD j 0 ||| x = B.getD j 0 + x := by
    have hxq : x = 2 ^ r * (x / 2 ^ r) := by
      have h := Nat.div_add_mod x (2 ^ r)
      omega
    calc B.getD j 0 ||| x = x ||| B.getD j 0 := Nat.lor_comm _ _
      _ = 2 ^ r * (x / 2 ^ r) ||| B.getD j 0 := by rw [← hxq]
      _ = 2 ^ r * (x / 2 ^ r) + B.getD j 0 := (Nat.mul_add_lt_is_or holdr _).symm
      _ = B.getD j 0 + x := by omega
  have hnew : B.getD j 0 + x < 256 := by
    have h := multiple_byte_bound hr hx hx8
    omega
  constructor
  · intro b hb
    rcases List.mem_or_eq_of_mem_set hb with hb | rfl
    · exact hB b hb
    · rw [hor]; exact hnew
  · rw [hor]
    have hset := ofLE_set j (B.getD j 0 + x) hj
    have hmul : 2 ^ (8 * j) * (B.getD j 0 + x) =
        2 ^ (8 * j) * B.getD j 0 + 2 ^ (8 * j) * x := by ring
    omega

theorem orIntoGo_spec :
    ∀ fuel v : Nat, v ≤ fuel → ∀ {B : List Nat} {j r : Nat}, r ≤ 7 →
      (∀ b ∈ B, b < 256) →
      ofLE B < 2 ^ (8 * j + r) → v % 2 ^ r = 0 →
      2 ^ (8 * j) * v + ofLE B < 2 ^ (8 * B.length) →
      (orIntoGo fuel B j v).length = B.length ∧
        (∀ b ∈ orIntoGo fuel B j v, b < 256) ∧
        ofLE (orIntoGo fuel B j v) = ofLE B + 2 ^ (8 * j) * v := by
  intro fuel
  induction fuel with
  | zero =>
    intro v hv B j r hr hB hlt hvr hfit
    have hv0 : v = 0 := by omega
    subst hv0
    exact ⟨rfl, hB, by simp [orIntoGo]⟩
  | succ fuel ih =>
    intro v hfuel B j r hr hB hlt hvr hfit
    by_cases hv : v = 0
    · subst hv
      have h0 : orIntoGo (fuel + 1) B j 0 = B := by simp [orIntoGo]
      rw [h0]
      exact ⟨rfl, hB, by omega⟩
    · simp only [orIntoGo]
      rw [if_neg hv]
      have hjlen : j < B.length := by
        by_contra hj
        push_neg at hj
        have h1 : (2 : Nat) ^ (8 * B.length) ≤ 2 ^ (8 * j) :=
          Nat.pow_le_pow_right (by norm_num) (by omega)
        have h2 : (2 : Nat) ^ (8 * j) ≤ 2 ^ (8 * j) * v :=
          Nat.le_mul_of_pos_right _ (Nat.pos_of_ne_zero hv)
        omega
      have hdvd : (2 : Nat) ^ r ∣ 256 := by
        have h : (256 : Nat) = 2 ^ 8 := by norm_num
        rw [h]
        exact Nat.pow_dvd_pow 2 (by omega)
      have hx : v % 256 % 2 ^ r = 0 := by
        rw [Nat.mod_mod_of_dvd v hdvd]
        exact hvr
      have hx8 : v % 256 < 256 := Nat.mod_lt _ (by norm_num)
      obtain ⟨hB2, hofLE2⟩ := ofLE_set_or hB hr hlt hx hx8 hjlen
      have hlen2 : (B.set j (B.getD j 0 ||| v % 256)).length = B.length := by
        simp
      have hble : v % 256 + 2 ^ r ≤ 256 := multiple_byte_bound hr hx hx8
      have hpow : (2 : Nat) ^ (8 * (j + 1)) = 2 ^ (8 * j) * 256 := by
        rw [Nat.mul_add, Nat.pow_add]
      have hlt2 : ofLE (B.set j (B.getD j 0 ||| v % 256)) < 2 ^ (8 * (j + 1) + 0) := by
        rw [Nat.add_zero, hpow, hofLE2]
        have hlt3 : ofLE B < 2 ^ (8 * j) * 2 ^ r := by
          calc ofLE B < 2 ^ (8 * j + r) := hlt
            _ = 2 ^ (8 * j) * 2 ^ r := Nat.pow_add 2 (8 * j) r
        have hmul : 2 ^ (8 * j) * (v % 256) ≤ 2 ^ (8 * j) * (256 - 2 ^ r) :=
          Nat.mul_le_mul_left _ (by omega)
        have hsplit : 2 ^ (8 * j) * 2 ^ r + 2 ^ (8 * j) * (256 - 2 ^ r) =
            2 ^ (8 * j) * 256 := by
          rw [← Nat.mul_add]
          have h2r : (2 : Nat) ^ r ≤ 256 := by
            calc (2 : Nat) ^ r ≤ 2 ^ 7 := Nat.pow_le_pow_right (by norm_num) hr
              _ ≤ 256 := by norm_num
          congr 1
          omega
        omega
      have hdm : 256 * (v / 256) + v % 256 = v := by
        have h := Nat.div_add_mod v 256
        omega
      have hfit2 : 2 ^ (8 * (j + 1)) * (v / 256) +
          ofLE (B.set j (B.getD j 0 ||| v % 256)) <
          2 ^ (8 * (B.set j (B.getD j 0 ||| v % 256)).length) := by
        rw [hlen2, hofLE2, hpow]
        have heq : 2 ^ (8 * j) * 256 * (v / 256) + (ofLE B + 2 ^ (8 * j) * (v % 256)) =
            2 ^ (8 * j) * v + ofLE B := by
          calc 2 ^ (8 * j) * 256 * (v / 256) + (ofLE B + 2 ^ (8 * j) * (v % 256))
              = 2 ^ (8 * j) * (256 * (v / 256) + v % 256) + ofLE B := by ring
            _ = 2 ^ (8 * j) * v + ofLE B := by rw [hdm]
        omega
      have hvle : v / 256 ≤ fuel := by
        have hlt256 : v / 256 < v := Nat.div_lt_self (Nat.pos_of_ne_zero hv) (by norm_num)
        omega
      have hrec := ih (v / 256) hvle (r := 0) (by norm_num) hB2 hlt2
        (by simp [Nat.mod_one]) hfit2
      obtain ⟨hrl, hrb, hro⟩ := hrec
      refine ⟨by rw [hrl, hlen2], hrb, ?_⟩
      rw [hro, hofLE2, hpow]
      calc ofLE B + 2 ^ (8 * j) * (v % 256) + 2 ^ (8 * j) * 256 * (v / 256)
          = ofLE B + 2 ^ (8 * j) * (256 * (v / 256) + v % 256) := by ring
        _ = ofLE B + 2 ^ (8 * j) * v := by rw [hdm]

theorem orInto_spec (v : Nat) {B : List Nat} {j r : Nat} (hr : r ≤ 7)
    (hB : ∀ b ∈ B, b < 256) (hlt : ofLE B < 2 ^ (8 * j + r))
    (hvr : v % 2 ^ r = 0) (hfit : 2 ^ (8 * j) * v + ofLE B < 2 ^ (8 * B.length)) :
    (orInto B j v).length = B.length ∧ (∀ b ∈ orInto B j v, b < 256) ∧
      ofLE (orInto B j v) = ofLE B + 2 ^ (8 * j) * v :=
  orIntoGo_spec v v (le_refl v) hr hB hlt hvr hfit

theorem zip_map_some : ∀ vs ss : List Nat,
    (vs.map some).zip ss = (vs.zip ss).map (fun p => (some p.1, p.2)) := by
  intro vs
  induction vs with
  | nil => intro ss; simp
  | cons v rest ih =>
    intro ss
    cases ss with
    | nil => simp
    | cons s srest => simp [ih]

theorem packLoop_spec :
    ∀ (ps : List (Nat × Nat)) (i : Nat) (B : List Nat),
      (∀ p ∈ ps, p.1 < 2 ^ p.2) → (∀ b ∈ B, b < 256) → ofLE B < 2 ^ i →
      i + sumBits (ps.map Prod.snd) ≤ 8 * B.length →
      (packLoop (ps.map (fun p => (some p.1, p.2))) i B).1 =
          i + sumBits (ps.map Prod.snd) ∧
        (packLoop (ps.map (fun p => (some p.1, p.2))) i B).2.length = B.length ∧
        (∀ b ∈ (packLoop (ps.map (fun p => (some p.1, p.2))) i B).2, b < 256) ∧
        ofLE (packLoop (ps.map (fun p => (some p.1, p.2))) i B).2 =
          ofLE B + 2 ^ i * packNat ps := by
  intro ps
  induction ps with
  | nil =>
    intro i B hps hB hlt hfit
    refine ⟨by simp [packLoop, sumBits], by simp [packLoop], ?_, by simp [packLoop, packNat]⟩
    simpa [packLoop] using hB
  | cons p rest ih =>
    obtain ⟨v, s⟩ := p
    intro i B hps hB hlt hfit
    have hv : v < 2 ^ s := hps (v, s) (by simp)
    have hsum : i + (s + sumBits (rest.map Prod.snd)) ≤ 8 * B.length := by
      simpa [sumBits] using hfit
    simp only [List.map_cons, packLoop]
    rw [shr3_eq_div i, and7_eq_mod i, Nat.shiftLeft_eq]
    have h83 : 8 * (i / 8) + i % 8 = i := by omega
    have hpe : (2 : Nat) ^ (8 * (i / 8)) * 2 ^ (i % 8) = 2 ^ i := by
      rw [← Nat.pow_add, h83]
    have hiv : 2 ^ (8 * (i / 8)) * (v * 2 ^ (i % 8)) = 2 ^ i * v := by
      rw [← hpe]; ring
    have hlt2 : ofLE B < 2 ^ (8 * (i / 8) + i % 8) := by rw [h83]; exact hlt
    have hpow_is : (2 : Nat) ^ (i + s) = 2 ^ i * 2 ^ s := Nat.pow_add 2 i s
    have hple : (2 : Nat) ^ (i + s) ≤ 2 ^ (8 * B.length) :=
      Nat.pow_le_pow_right (by norm_num) (by omega)
    have hvp : 2 ^ i * v + 2 ^ i ≤ 2 ^ i * 2 ^ s := by
      have h1 : 2 ^ i * (v + 1) ≤ 2 ^ i * 2 ^ s :=
        Nat.mul_le_mul_left _ (by omega)
      have h2 : 2 ^ i * (v + 1) = 2 ^ i * v + 2 ^ i := by ring
      omega
    have hfitOr : 2 ^ (8 * (i / 8)) * (v * 2 ^ (i % 8)) + ofLE B <
        2 ^ (8 * B.length) := by
      rw [hiv]
      have hip : (0 : Nat) < 2 ^ i := Nat.two_pow_pos i
      omega
    obtain ⟨hl1, hl2, hl3⟩ := orInto_spec (v * 2 ^ (i % 8)) (by omega : i % 8 ≤ 7)
      hB hlt2 (Nat.mul_mod_left v _) hfitOr
    rw [hiv] at hl3
    have hlt3 : ofLE (orInto B (i / 8) (v * 2 ^ (i % 8))) < 2 ^ (i + s) := by
      rw [hl3, hpow_is]
      have hip : (0 : Nat) < 2 ^ i := Nat.two_pow_pos i
      omega
    have hfit3 : (i + s) + sumBits (rest.map Prod.snd) ≤
        8 * (orInto B (i / 8) (v * 2 ^ (i % 8))).length := by
      rw [hl1]; omega
    obtain ⟨hr1, hr2, hr3, hr4⟩ := ih (i + s) (orInto B (i / 8) (v * 2 ^ (i % 8)))
      (fun q hq => hps q (by simp [hq])) hl2 hlt3 hfit3
    refine ⟨?_, ?_, hr3, ?_⟩
    · rw [hr1]
      simp only [List.map_cons, sumBits]
      omega
    · rw [hr2, hl1]
    · rw [hr4, hl3]
      simp only [packNat]
      calc ofLE B + 2 ^ i * v + 2 ^ (i + s) * packNat rest
          = ofLE B + 2 ^ i * (v + 2 ^ s * packNat rest) := by
            rw [hpow_is]; ring
        _ = ofLE B + 2 ^ i * (v + 2 ^ s * packNat rest) := rfl

theorem packCore_spec (sizes values : List Nat)
    (hlen : values.length = sizes.length)
    (hvals : ∀ p ∈ values.zip sizes, p.1 < 2 ^ p.2)
    (htot : sumBits sizes ≤ 256) :
    (packCore sizes (values.map some)).length = (sumBits sizes + 7) / 8 ∧
      (∀ b ∈ packCore sizes (values.map some), b < 256) ∧
      ofLE (packCore sizes (values.map some)) =
        packNat (values.zip sizes) +
          2 ^ sumBits sizes * padFactor (sumBits sizes) := by
  have hsnd : (values.zip sizes).map Prod.snd = sizes :=
    List.map_snd_zip values sizes (le_of_eq hlen.symm)
  have hPL := packLoop_spec (values.zip sizes) 0 (List.replicate 32 0) hvals
    (by intro b hb; rw [List.eq_of_mem_replicate hb]; norm_num)
    (by rw [ofLE_replicate_zero]; norm_num)
    (by rw [hsnd, List.length_replicate]; omega)
  rw [hsnd] at hPL
  rw [ofLE_replicate_zero, List.length_replicate] at hPL
  obtain ⟨hp1, hp2, hp3, hp4⟩ := hPL
  rw [Nat.zero_add] at hp1
  rw [Nat.pow_zero, Nat.one_mul, Nat.zero_add] at hp4
  have hplt : packNat (values.zip sizes) < 2 ^ sumBits sizes := by
    have h := packNat_lt hvals
    rw [hsnd] at h
    exact h
  simp only [packCore, zip_map_some]
  rw [hp1]
  simp only [shr3_eq_div, and7_eq_mod]
  by_cases hr0 : sumBits sizes % 8 = 0
  · rw [if_neg (by omega)]
    have hc32 : (sumBits sizes + 7) / 8 ≤ 32 := by omega
    refine ⟨?_, ?_, ?_⟩
    · rw [List.length_take, hp2]; omega
    · intro b hb; exact hp3 b (List.mem_of_mem_take hb)
    · rw [ofLE_take hp3, hp4, padFactor, if_pos hr0, Nat.mul_zero, Nat.add_zero]
      refine Nat.mod_eq_of_lt (lt_of_lt_of_le hplt ?_)
      exact Nat.pow_le_pow_right (by norm_num) (by omega)
  · rw [if_pos (by omega)]
    rw [and255_eq_mod, Nat.shiftLeft_eq]
    have h2r1 : (0 : Nat) < 2 ^ (sumBits sizes % 8) := Nat.two_pow_pos _
    have h2r7 : (2 : Nat) ^ (sumBits sizes % 8) ≤ 128 := by
      calc (2 : Nat) ^ (sumBits sizes % 8) ≤ 2 ^ 7 :=
            Nat.pow_le_pow_right (by norm_num) (by omega)
        _ = 128 := by norm_num
    have hxval : (255 * 2 ^ (sumBits sizes % 8)) % 256 =
        256 - 2 ^ (sumBits sizes % 8) := by
      have h2 : 255 * 2 ^ (sumBits sizes % 8) =
          256 * (2 ^ (sumBits sizes % 8) - 1) + (256 - 2 ^ (sumBits sizes % 8)) := by
        omega
      rw [h2, Nat.mul_add_mod]
      exact Nat.mod_eq_of_lt (by omega)
    rw [hxval]
    have hmulpow : (2 : Nat) ^ (sumBits sizes % 8) * 2 ^ (8 - sumBits sizes % 8) =
        256 := by
      rw [← Nat.pow_add]
      have h8 : sumBits sizes % 8 + (8 - sumBits sizes % 8) = 8 := by omega
      rw [h8]
    have hsub : 256 - 2 ^ (sumBits sizes % 8) =
        2 ^ (sumBits sizes % 8) * (2 ^ (8 - sumBits sizes % 8) - 1) := by
      rw [Nat.mul_sub, hmulpow, Nat.mul_one]
    have hlt : ofLE (packLoop ((values.zip sizes).map fun p => (some p.1, p.2)) 0
        (List.replicate 32 0)).2 <
        2 ^ (8 * (sumBits sizes / 8) + sumBits sizes % 8) := by
      rw [hp4]
      have he : 8 * (sumBits sizes / 8) + sumBits sizes % 8 = sumBits sizes := by omega
      rw [he]
      exact hplt
    have hx : (256 - 2 ^ (sumBits sizes % 8)) % 2 ^ (sumBits sizes % 8) = 0 := by
      rw [hsub]
      exact Nat.mul_mod_right _ _
    obtain ⟨hB2, hofLE2⟩ := ofLE_set_or hp3 (by omega : sumBits sizes % 8 ≤ 7) hlt hx
      (by omega) (by rw [hp2]; omega)
    have hpe : (2 : Nat) ^ (8 * (sumBits sizes / 8)) * 2 ^ (sumBits sizes % 8) =
        2 ^ sumBits sizes := by
      rw [← Nat.pow_add]
      congr 1
      omega
    refine ⟨?_, ?_, ?_⟩
    · rw [List.length_take, List.length_set, hp2]
      omega
    · intro b hb
      exact hB2 b (List.mem_of_mem_take hb)
    · rw [ofLE_take hB2, hofLE2, hp4, padFactor, if_neg hr0, hsub]
      have hterm : 2 ^ (8 * (sumBits sizes / 8)) *
          (2 ^ (sumBits sizes % 8) * (2 ^ (8 - sumBits sizes % 8) - 1)) =
          2 ^ sumBits sizes * (2 ^ (8 - sumBits sizes % 8) - 1) := by
        rw [← Nat.mul_assoc, hpe]
      rw [hterm]
      refine Nat.mod_eq_of_lt ?_
      have hc : 8 * ((sumBits sizes + 7) / 8) =
          sumBits sizes + (8 - sumBits sizes % 8) := by omega
      have hpow2 : (2 : Nat) ^ (8 * ((sumBits sizes + 7) / 8)) =
          2 ^ sumBits sizes * 2 ^ (8 - sumBits sizes % 8) := by
        rw [hc, Nat.pow_add]
      rw [hpow2]
      have hmul2 : 2 ^ sumBits sizes * (2 ^ (8 - sumBits sizes % 8) - 1) =
          2 ^ sumBits sizes * 2 ^ (8 - sumBits sizes % 8) - 2 ^ sumBits sizes := by
        rw [Nat.mul_sub, Nat.mul_one]
      have hge : 2 ^ sumBits sizes ≤
          2 ^ sumBits sizes * 2 ^ (8 - sumBits sizes % 8) :=
        Nat.le_mul_of_pos_right _ (Nat.two_pow_pos _)
      omega

/-! ## Item-codec lemmas: the unpacking loop -/

theorem revFoldl_eq_ofLE :
    ∀ l : List Nat, (∀ b ∈ l, b < 256) →
      l.reverse.foldl (fun value b => (value <<< 8) ||| b) 0 = ofLE l := by
  intro l
  induction l with
  | nil => intro h; rfl
  | cons b rest ih =>
    intro h
    have hb : b < 256 := h b (by simp)
    rw [List.reverse_cons, List.foldl_append, ih (fun x hx => h x (by simp [hx]))]
    show (ofLE rest <<< 8) ||| b = ofLE (b :: rest)
    have hb2 : b < 2 ^ 8 := lt_of_lt_of_eq hb (by norm_num)
    have h1 : (ofLE rest <<< 8) ||| b = 2 ^ 8 * ofLE rest + b := by
      rw [Nat.shiftLeft_eq, Nat.mul_comm]
      exact (Nat.mul_add_lt_is_or hb2 (ofLE rest)).symm
    rw [h1, ofLE]
    have h256 : (2 : Nat) ^ 8 = 256 := by norm_num
    omega

theorem sliceValue_eq {data : List Nat} (h : ∀ b ∈ data, b < 256) (lo hi : Nat) :
    sliceValue data lo hi = ofLE data / 2 ^ (8 * lo) % 2 ^ (8 * (hi - lo + 1)) := by
  have hdropBytes : ∀ b ∈ data.drop lo, b < 256 :=
    fun b hb => h b (List.drop_subset _ _ hb)
  have htakeBytes : ∀ b ∈ (data.drop lo).take (hi - lo + 1), b < 256 :=
    fun b hb => hdropBytes b (List.take_subset _ _ hb)
  rw [sliceValue, revFoldl_eq_ofLE _ htakeBytes, ofLE_take hdropBytes, ofLE_drop h]

theorem unpackGo_eq :
    ∀ (sizes : List Nat) (i : Nat) (data : List Nat),
      (∀ b ∈ data, b < 256) → i + sumBits sizes ≤ 8 * data.length →
      unpackGo sizes i data (data.length * 8) =
        extractAux (ofLE data / 2 ^ i) sizes := by
  intro sizes
  induction sizes with
  | nil => intro i data h hfit; rfl
  | cons s rest ih =>
    intro i data h hfit
    have hsum : i + (s + sumBits rest) ≤ 8 * data.length := by
      simpa [sumBits] using hfit
    simp only [unpackGo, extractAux]
    rw [if_neg (by omega)]
    rw [shr3_eq_div i, shr3_eq_div (i + s), and7_eq_mod i, Nat.shiftRight_eq_div_pow,
      sliceValue_eq h]
    have hw1 : i / 8 ≤ (i + s) / 8 := Nat.div_le_div_right (by omega)
    have hWdef : 8 * ((i + s) / 8 - i / 8 + 1) =
        i % 8 + (8 * ((i + s) / 8) + 8 - i) := by omega
    have hsplitpow : (2 : Nat) ^ (8 * ((i + s) / 8 - i / 8 + 1)) =
        2 ^ (i % 8) * 2 ^ (8 * ((i + s) / 8) + 8 - i) := by
      rw [← Nat.pow_add]
      congr 1
    rw [hsplitpow, Nat.mod_mul_right_div_self, Nat.div_div_eq_div_mul, ← Nat.pow_add]
    have h8i : 8 * (i / 8) + i % 8 = i := by omega
    rw [h8i]
    congr 1
    · congr 1
      set W := 8 * ((i + s) / 8) + 8 - i with hW
      have hWlb : s < W := by omega
      have hWub : W ≤ s + 8 := by omega
      have hY : ofLE data / 2 ^ i % 2 ^ W < 2 ^ (s + 8) :=
        lt_of_lt_of_le (Nat.mod_lt _ (Nat.two_pow_pos _))
          (Nat.pow_le_pow_right (by norm_num) hWub)
      rw [pyClearWindow, Nat.div_eq_of_lt hY, Nat.mul_zero, Nat.add_zero,
        Nat.mod_mod_of_dvd _ (Nat.pow_dvd_pow 2 (by omega))]
    · have hrec := ih (i + s) data h (by omega)
      rw [hrec]
      congr 1
      rw [Nat.div_div_eq_div_mul, ← Nat.pow_add]

theorem extractAux_spec :
    ∀ (ps : List (Nat × Nat)) (pad : Nat), (∀ p ∈ ps, p.1 < 2 ^ p.2) →
      extractAux (packNat ps + 2 ^ sumBits (ps.map Prod.snd) * pad)
        (ps.map Prod.snd) = ps.map (fun p => some p.1) := by
  intro ps
  induction ps with
  | nil => intro pad h; rfl
  | cons p rest ih =>
    obtain ⟨v, s⟩ := p
    intro pad h
    have hv : v < 2 ^ s := h (v, s) (by simp)
    simp only [List.map_cons, sumBits, packNat, extractAux]
    have hN : v + 2 ^ s * packNat rest + 2 ^ (s + sumBits (rest.map Prod.snd)) * pad =
        v + 2 ^ s * (packNat rest + 2 ^ sumBits (rest.map Prod.snd) * pad) := by
      rw [Nat.pow_add]; ring
    rw [hN]
    congr 1
    · rw [Nat.add_mul_mod_self_left, Nat.mod_eq_of_lt hv]
    · rw [Nat.add_mul_div_left _ _ (Nat.two_pow_pos s), Nat.div_eq_of_lt hv,
        Nat.zero_add]
      exact ih pad (fun q hq => h q (by simp [hq]))

theorem unpackCore_packCore (sizes values : List Nat)
    (hlen : values.length = sizes.length)
    (hvals : ∀ p ∈ values.zip sizes, p.1 < 2 ^ p.2)
    (htot : sumBits sizes ≤ 256) :
    unpackCore sizes (packCore sizes (values.map some)) = values.map some := by
  obtain ⟨hL, hBy, hOf⟩ := packCore_spec sizes values hlen hvals htot
  rw [unpackCore]
  have hdata2 : ∀ b ∈ (32 :: packCore sizes (values.map some)), b < 256 := by
    intro b hb
    rcases List.mem_cons.mp hb with rfl | hb
    · norm_num
    · exact hBy b hb
  have hfit : 8 + sumBits sizes ≤ 8 * (32 :: packCore sizes (values.map some)).length := by
    rw [List.length_cons, hL]
    omega
  rw [unpackGo_eq sizes 8 _ hdata2 hfit]
  have hdiv : ofLE (32 :: packCore sizes (values.map some)) / 2 ^ 8 =
      ofLE (packCore sizes (values.map some)) := by
    show (32 + 256 * ofLE (packCore sizes (values.map some))) / 2 ^ 8 = _
    have h256 : (2 : Nat) ^ 8 = 256 := by norm_num
    rw [h256, Nat.add_mul_div_left _ _ (by norm_num : (0 : Nat) < 256)]
    norm_num
  rw [hdiv, hOf]
  have hsnd : (values.zip sizes).map Prod.snd = sizes :=
    List.map_snd_zip values sizes (le_of_eq hlen.symm)
  have hES := extractAux_spec (values.zip sizes) (padFactor (sumBits sizes)) hvals
  rw [hsnd] at hES
  rw [hES]
  have hfst : (values.zip sizes).map (fun p => some p.1) = values.map some := by
    have h1 : (values.zip sizes).map (fun p => some p.1) =
        ((values.zip sizes).map Prod.fst).map some := by
      rw [List.map_map]
      rfl
    rw [h1, List.map_fst_zip values sizes (le_of_eq hlen)]
  rw [hfst]

/-! ## Item-codec lemmas: wrap/unwrap assembly -/

theorem or_byte_lt {a b : Nat} (ha : a < 256) (hb : b < 256) : (a ||| b) < 256 := by
  have h256 : (256 : Nat) = 2 ^ 8 := by norm_num
  rw [h256] at ha hb ⊢
  exact Nat.or_lt_two_pow ha hb

theorem getD_lt_of_bytes {B : List Nat} (hB : ∀ b ∈ B, b < 256) (j : Nat) :
    B.getD j 0 < 256 := by
  rcases Nat.lt_or_ge j B.length with hj | hj
  · rw [List.getD_eq_getElem?_getD, List.getElem?_eq_getElem hj]
    simpa using hB _ (List.getElem_mem hj)
  · rw [List.getD_eq_getElem?_getD, List.getElem?_eq_none hj]
    norm_num

theorem orIntoGo_bytes_lt :
    ∀ fuel v : Nat, ∀ (B : List Nat) (j : Nat), (∀ b ∈ B, b < 256) →
      ∀ b ∈ orIntoGo fuel B j v, b < 256 := by
  intro fuel
  induction fuel with
  | zero => intro v B j hB; exact hB
  | succ fuel ih =>
    intro v B j hB
    by_cases hv : v = 0
    · subst hv
      have h0 : orIntoGo (fuel + 1) B j 0 = B := by simp [orIntoGo]
      rw [h0]
      exact hB
    · simp only [orIntoGo]
      rw [if_neg hv]
      refine ih (v / 256) _ _ ?_
      intro b hb
      rcases List.mem_or_eq_of_mem_set hb with hb | rfl
      · exact hB b hb
      · exact or_byte_lt (getD_lt_of_bytes hB j) (Nat.mod_lt _ (by norm_num))

theorem orInto_bytes_lt (v : Nat) (B : List Nat) (j : Nat)
    (hB : ∀ b ∈ B, b < 256) : ∀ b ∈ orInto B j v, b < 256 :=
  orIntoGo_bytes_lt v v B j hB

theorem packLoop_bytes_lt :
    ∀ (l : List (Option Nat × Nat)) (i : Nat) (B : List Nat),
      (∀ b ∈ B, b < 256) → ∀ b ∈ (packLoop l i B).2, b < 256 := by
  intro l
  induction l with
  | nil => intro i B hB; exact hB
  | cons p rest ih =>
    obtain ⟨ov, s⟩ := p
    intro i B hB
    cases ov with
    | none => exact hB
    | some v => exact ih _ _ (orInto_bytes_lt _ _ _ hB)

theorem packCore_bytes_lt (sizes : List Nat) (values : List (Option Nat)) :
    ∀ b ∈ packCore sizes values, b < 256 := by
  intro b hb
  simp only [packCore] at hb
  have hPB := packLoop_bytes_lt (values.zip sizes) 0 (List.replicate 32 0)
    (by intro x hx; rw [List.eq_of_mem_replicate hx]; norm_num)
  have hb2 := List.mem_of_mem_take hb
  set P := packLoop (values.zip sizes) 0 (List.replicate 32 0)
  by_cases hpad : P.1 &&& 7 ≠ 0
  · rw [if_pos hpad] at hb2
    rcases List.mem_or_eq_of_mem_set hb2 with hb3 | rfl
    · exact hPB b hb3
    · refine or_byte_lt (getD_lt_of_bytes hPB _) ?_
      rw [and255_eq_mod]
      exact Nat.mod_lt _ (by norm_num)
  · rw [if_neg hpad] at hb2
    exact hPB b hb2

theorem length_item_header (version w : Nat) (key : Int) :
    (item_header version w key).length = 5 := by
  simp [item_header, length_beBytes]

theorem flag_byte_shift {w version : Nat} (hw : w ≤ 1) (hver : version < 128) :
    ((w <<< 7) ||| version) >>> 7 = w := by
  have hv : version < 2 ^ 7 := lt_of_lt_of_eq hver (by norm_num)
  have hb : (w <<< 7) ||| version = 2 ^ 7 * w + version := by
    rw [Nat.shiftLeft_eq, Nat.mul_comm w]
    exact (Nat.mul_add_lt_is_or hv w).symm
  rw [hb, Nat.shiftRight_eq_div_pow, Nat.mul_add_div (Nat.two_pow_pos 7),
    Nat.div_eq_of_lt hv, Nat.add_zero]

theorem unpackI32BE_append {l : List Nat} (rest : List Nat) (hl : l.length = 4) :
    unpackI32BE (l ++ rest) = unpackI32BE l := by
  simp only [unpackI32BE, List.take_left' hl, List.take_of_length_le hl.le]

theorem i32_roundtrip (key : Int) (h1 : -2147483648 ≤ key) (h2 : key < 2147483648) :
    unpackI32BE (beBytes 4 (pyUInt32 key)) = key := by
  simp only [unpackI32BE]
  rw [List.take_of_length_le (le_of_eq (length_beBytes 4 _)), ofBE_beBytes]
  have hlt : pyUInt32 key < 4294967296 := by
    rw [pyUInt32]
    omega
  have hmod : pyUInt32 key % 2 ^ (8 * 4) = pyUInt32 key :=
    Nat.mod_eq_of_lt (by norm_num; omega)
  rw [hmod, pyUInt32]
  split <;> omega

theorem unwrap_item_eq (hb : Nat) (keybytes body : List Nat)
    (hkb : keybytes.length = 4) :
    unwrap_item ((hb :: keybytes) ++ body) =
      (hb >>> 7,
        unpack_item_values (hb >>> 7)
          ((rotate_data_right (xor_data body (pyShr (unpackI32BE keybytes) 5))
            (unpackI32BE keybytes % 32).toNat).drop 2),
        unpackI32BE keybytes) := by
  have hdrop4 : (keybytes ++ body).drop 4 = body := List.drop_left' hkb
  simp only [unwrap_item, List.cons_append, List.drop_succ_cons, List.drop_zero,
    hdrop4, unpackI32BE_append body hkb, List.getD_cons_zero]

/-! ## Claims C8, C9, C10 -/

/-- C8: XOR-stream involution: for every byte string d and every integer key,
xor_data(xor_data(d, key), key) == d. -/
theorem claim_C8 (d : List Nat) (key : Int) (h : ∀ b ∈ d, b < 256) :
    xor_data (xor_data d key) key = d :=
  xor_data_invol d key h

theorem claim_C8_witness :
    (∀ b ∈ [0, 37, 255, 128], b < 256) ∧
      xor_data (xor_data [0, 37, 255, 128] (-123456789)) (-123456789) = [0, 37, 255, 128] :=
  ⟨by decide, claim_C8 [0, 37, 255, 128] (-123456789) (by decide)⟩

/-- C9: rotation inverse: for every non-empty byte string d and every
non-negative integer s, rotate_data_right(rotate_data_left(d, s), s) == d;
both functions reduce s modulo len(d) and are undefined on the empty string. -/
theorem claim_C9 (d : List Nat) (s : Nat) (h : d ≠ []) :
    rotate_data_right (rotate_data_left d s) s = d :=
  rotate_right_rotate_left d s h

theorem claim_C9_witness :
    ([10, 20, 30] : List Nat) ≠ [] ∧
      rotate_data_right (rotate_data_left [10, 20, 30] 7) 7 = [10, 20, 30] :=
  ⟨by decide, claim_C9 [10, 20, 30] 7 (by decide)⟩

/-- C10: varint round trip: for every non-negative integer i, writing i with
write_varint and reading the bytes back with read_varint yields i (and
consumes the whole buffer). -/
theorem claim_C10 (i : Nat) : read_varint (write_varint i) = some (i, []) := by
  have h := readVarintGo_write_varint i 0 0 [] (by norm_num)
  rw [List.append_nil] at h
  simpa [read_varint] using h

/-! ## Claim C1: the item codec round trip -/

/-- C1: item codec round trip: for every is_weapon flag in {0, 1}, every full
list of 17 field values each within its declared bit width for that flag, the
game's item_struct_version (7 for Game A, 10 for Game B), and every 32-bit
signed key, unwrap_item applied to wrap_item(is_weapon, values, key) returns
exactly (is_weapon, values, key). -/
theorem claim_C1 (version w : Nat) (values : List Nat) (key : Int)
    (hver : version = 7 ∨ version = 10) (hw : w = 0 ∨ w = 1)
    (hlen : values.length = 17)
    (hvals : ∀ p ∈ values.zip (item_sizes w), p.1 < 2 ^ p.2)
    (hkey1 : -2147483648 ≤ key) (hkey2 : key < 2147483648) :
    unwrap_item (wrap_item version w (values.map some) key) =
      (w, values.map some, key) := by
  have hver128 : version < 128 := by rcases hver with rfl | rfl <;> norm_num
  have hw1 : w ≤ 1 := by rcases hw with rfl | rfl <;> norm_num
  have hszlen : values.length = (item_sizes w).length := by
    rcases hw with rfl | rfl <;> (rw [hlen]; rfl)
  have hsztot : sumBits (item_sizes w) ≤ 256 := by
    rcases hw with rfl | rfl <;> decide
  have hRT := unpackCore_packCore (item_sizes w) values hszlen hvals hsztot
  obtain ⟨ck, hck⟩ : ∃ ck, wrap_item_prebody version w (values.map some) key =
      beBytes 2 ck ++ packCore (item_sizes w) (values.map some) := ⟨_, rfl⟩
  have hpreBytes : ∀ b ∈ wrap_item_prebody version w (values.map some) key,
      b < 256 := by
    rw [hck]
    intro b hb
    rcases List.mem_append.mp hb with hb | hb
    · exact beBytes_bytes_lt 2 ck b hb
    · exact packCore_bytes_lt _ _ b hb
  have hpreNe : wrap_item_prebody version w (values.map some) key ≠ [] := by
    rw [hck]
    intro hcontra
    have hlen0 := congrArg List.length hcontra
    simp [length_beBytes] at hlen0
  have hsplit : wrap_item version w (values.map some) key =
      (((w <<< 7) ||| version) :: beBytes 4 (pyUInt32 key)) ++
        xor_data (rotate_data_left (wrap_item_prebody version w (values.map some) key)
          (key % 32).toNat) (pyShr key 5) := rfl
  rw [hsplit, unwrap_item_eq _ _ _ (length_beBytes 4 _), i32_roundtrip key hkey1 hkey2,
    flag_byte_shift hw1 hver128,
    xor_data_invol _ _ (fun b hb => hpreBytes b (mem_rotate_data_left hb)),
    rotate_right_rotate_left _ _ hpreNe, hck,
    List.drop_left' (length_beBytes 2 ck)]
  rw [show unpack_item_values w (packCore (item_sizes w) (values.map some)) =
    unpackCore (item_sizes w) (packCore (item_sizes w) (values.map some)) from rfl, hRT]

theorem claim_C1_witness :
    unwrap_item (wrap_item 7 0
        ([255, 1, 2, 3, 4, 5, 6, 7, 8, 9, 10, 11, 12, 13, 14, 15, 16].map some)
        (-123456789)) =
      (0, [255, 1, 2, 3, 4, 5, 6, 7, 8, 9, 10, 11, 12, 13, 14, 15, 16].map some,
        -123456789) :=
  claim_C1 7 0 [255, 1, 2, 3, 4, 5, 6, 7, 8, 9, 10, 11, 12, 13, 14, 15, 16]
    (-123456789) (Or.inl rfl) (Or.inl rfl) (by decide) (by decide) (by decide)
    (by decide)

/-! ## Claim C5: the item obfuscation rotation -/

set_option maxRecDepth 40000 in
set_option maxHeartbeats 1000000 in
set_option exponentiation.threshold 400 in
/-- C5 counterexample: at the concrete item below with key = 33 (so key & 31
is 1 and key >> 5 is 1), the body the code writes after the 5-byte header is
NOT the checksum-plus-packed buffer rotated left by key & 31 BIT positions
then XORed with the key stream: the code rotates BYTE positions. -/
theorem claim_C5_counterexample :
    (wrap_item 7 0
        ([255, 1, 2, 3, 4, 5, 6, 7, 8, 9, 10, 11, 12, 13, 14, 15, 16].map some)
        33).drop 5 ≠
      xor_data (specRotateLeftBits (wrap_item_prebody 7 0
          ([255, 1, 2, 3, 4, 5, 6, 7, 8, 9, 10, 11, 12, 13, 14, 15, 16].map some)
          33) ((33 : Int) % 32).toNat)
        (pyShr 33 5) := by
  decide

/-- C5 (amended): for every item wrapped with key k, the body written after
the 5-byte header is the buffer (crc16 | packed) rotated left by k & 31 BYTE
positions (not bit positions) and then XORed with the key stream derived from
k >> 5; unwrap_item inverts this by XORing with the same stream and rotating
right by the same byte count. -/
theorem claim_C5 (version w : Nat) (values : List (Option Nat)) (key : Int) :
    wrap_item version w values key =
      item_header version w key ++
        xor_data (rotate_data_left (wrap_item_prebody version w values key)
          (key % 32).toNat) (pyShr key 5) ∧
      rotate_data_right (xor_data ((wrap_item version w values key).drop 5)
          (pyShr key 5)) (key % 32).toNat =
        wrap_item_prebody version w values key := by
  obtain ⟨ck, hck⟩ : ∃ ck, wrap_item_prebody version w values key =
      beBytes 2 ck ++ packCore (item_sizes w) values := ⟨_, rfl⟩
  have hpreBytes : ∀ b ∈ wrap_item_prebody version w values key, b < 256 := by
    rw [hck]
    intro b hb
    rcases List.mem_append.mp hb with hb | hb
    · exact beBytes_bytes_lt 2 ck b hb
    · exact packCore_bytes_lt _ _ b hb
  have hpreNe : wrap_item_prebody version w values key ≠ [] := by
    rw [hck]
    intro hcontra
    have hlen0 := congrArg List.length hcontra
    simp [length_beBytes] at hlen0
  refine ⟨rfl, ?_⟩
  have hdrop5 : (wrap_item version w values key).drop 5 =
      xor_data (rotate_data_left (wrap_item_prebody version w values key)
        (key % 32).toNat) (pyShr key 5) :=
    List.drop_left' (length_item_header version w key)
  rw [hdrop5, xor_data_invol _ _ (fun b hb => hpreBytes b (mem_rotate_data_left hb)),
    rotate_right_rotate_left _ _ hpreNe]

/-! ## Claim C7: the CON host-container check -/

/-- C7: the claim that inputs beginning with ASCII CON-space are rejected with
the host-container diagnostic before the digest check fails on the code: in
Python 3 the test data[:4] == "CON " compares bytes against str and is always
False, so NO input — in particular none starting with the CON bytes
67, 79, 78, 32 — ever produces the host-container diagnostic; such inputs fall
through to the SHA-1 digest check instead. -/
theorem claim_C7 (sha1 : List Nat → List Nat) (data : List Nat) :
    unwrap_player_data_precheck sha1 data ≠ some con_diagnostic := by
  intro h
  simp only [unwrap_player_data_precheck, pyEqBytesStr, Bool.false_eq_true,
    if_false] at h
  rcases ne_or_eq (data.take 20) (sha1 (data.drop 20)) with hne | heq
  · rw [if_pos hne] at h
    have hmsg : invalid_save_diagnostic = con_diagnostic := Option.some.inj h
    exact absurd hmsg (by decide)
  · rw [if_neg (by simp [heq])] at h
    exact Option.noConfusion h

/-! ## Claim C3: the level mutation -/

/-- C3 counterexample: at the level cap (80) with xp above required_xp[79], the
claim says the xp is left unchanged (only xp < required_xp[L-1] may reset it at
the cap), but the code forces xp to required_xp[79] whenever it differs. -/
theorem claim_C3_counterexample :
    required_xp.getD 79 0 ≤ 12787956 ∧
      (modify_level 80 50 12787956).2 = 12787955 ∧ (12787955 : Nat) ≠ 12787956 := by
  decide

/-- C3 (amended): for 1 ≤ L ≤ max_level = 80 the level option sets the level
field to L; below the cap the xp is reset to required_xp[L-1] exactly when it
lies outside [required_xp[L-1], required_xp[L]) and kept otherwise; at the cap
L = 80 the xp is always forced to required_xp[79].  (In particular level 72 on
a level-50 save sets xp to exactly 9520931.) -/
theorem claim_C3 (L level xp : Nat) (h1 : 1 ≤ L) (h2 : L ≤ 80) :
    modify_level L level xp =
      (L, if L = 80 then required_xp.getD (L - 1) 0
        else if xp < required_xp.getD (L - 1) 0 ∨ required_xp.getD L 0 ≤ xp then
          required_xp.getD (L - 1) 0
        else xp) := by
  have hlen : required_xp.length = 80 := rfl
  rw [modify_level, hlen, if_neg (by omega)]
  by_cases hcap : L = 80
  · subst hcap
    rw [if_pos rfl, if_pos rfl]
    by_cases hxp : xp = required_xp.getD (80 - 1) 0 <;> simp [hxp]
  · rw [if_neg hcap, if_neg hcap]

theorem claim_C3_witness : modify_level 72 50 3429728 = (72, 9520931) := by
  have h := claim_C3 72 50 3429728 (by norm_num) (by norm_num)
  exact h.trans (by decide)

/-! ## Claim C4: the backpack mutation -/

theorem finish_backpack_eq_clamp (n : Int) :
    finish_backpack (.numRequest n) = (min 39 (max 12 n)).toNat := by
  simp only [finish_backpack, max_backpack_size, min_backpack_size]
  split
  · omega
  · split <;> omega

theorem getD_seven_of_update {slots : List Nat} (q : Nat) (h : 7 ≤ slots.length) :
    (slots.take 7 ++ [q] ++ slots.drop 8).getD 7 0 = q := by
  have hlen : (slots.take 7).length = 7 := by
    rw [List.length_take]; omega
  rw [List.append_assoc, List.getD_eq_getElem?_getD,
    List.getElem?_append_right (le_of_eq hlen), hlen]
  simp

/-- C4: backpack SDU coherence: for every numeric request S the stored size is
min_backpack + 3 * ceil((clamp(S, min, max) - min_backpack) / 3) and slot 7 of
the black-market SDU array is ceil((clamp(S, min, max) - min_backpack) / 3);
for the request "max" (Game A) the stored size is 39 and the slot is 9. -/
theorem claim_C4 :
    (∀ (n : Int) (slots : List Nat), 7 ≤ slots.length →
      (modify_backpack (finish_backpack (.numRequest n)) slots).1 =
          12 + 3 * (((min 39 (max 12 n)).toNat - 12 + 2) / 3) ∧
        (modify_backpack (finish_backpack (.numRequest n)) slots).2.2.getD 7 0 =
          ((min 39 (max 12 n)).toNat - 12 + 2) / 3) ∧
    (∀ slots : List Nat, 7 ≤ slots.length →
      (modify_backpack (finish_backpack .maxRequest) slots).1 = 39 ∧
        (modify_backpack (finish_backpack .maxRequest) slots).2.2.getD 7 0 = 9) := by
  constructor
  · intro n slots hlen
    rw [finish_backpack_eq_clamp]
    constructor
    · simp only [modify_backpack, min_backpack_size]
      ring
    · exact getD_seven_of_update _ hlen
  · intro slots hlen
    constructor
    · rfl
    · exact getD_seven_of_update _ hlen

theorem claim_C4_witness :
    (modify_backpack (finish_backpack (.numRequest 50)) [0, 0, 0, 0, 0, 0, 0, 0, 0]).1 = 39 ∧
      (modify_backpack (finish_backpack .maxRequest) [0, 0, 0, 0, 0, 0, 0, 0, 0]).2.2.getD 7 0
        = 9 := by
  have ha := claim_C4.1 50 [0, 0, 0, 0, 0, 0, 0, 0, 0] (by decide)
  have hb := claim_C4.2 [0, 0, 0, 0, 0, 0, 0, 0, 0] (by decide)
  exact ⟨ha.1.trans (by decide), hb.2⟩

/-! ## Claim C6: the challenge bonus option -/

/-- C6 counterexample: with max and bonus both requested on a catalog challenge
with max 5000 and bonus 100 (previous 0), the code yields 100: not the claimed
max(5000, 100) = 5000, and strictly smaller than the value the max option had
just set, contradicting both parts of the claim. -/
theorem claim_C6_counterexample :
    apply_challenge_opts false true true ⟨5000, some 100⟩ 0 0 = 100 ∧
      apply_challenge_opts false true false ⟨5000, some 100⟩ 0 0 = 5000 ∧
      (100 : Nat) ≠ max 5000 100 := by
  decide

/-- C6 (amended): with bonus requested on a catalog challenge that has a bonus,
the resulting total is previous + bonus unconditionally whenever zero or max is
also requested (which can lower the value max just produced), and
max(total as left by the other options, previous + bonus) when bonus is
requested alone. -/
theorem claim_C6 (do_zero do_max : Bool) (cat : CatalogChallenge) (tv pv : Nat)
    (hb : cat.has_bonus = true) :
    apply_challenge_opts do_zero do_max true cat tv pv =
      if do_max || do_zero then pv + cat.get_bonus
      else max (apply_challenge_opts do_zero do_max false cat tv pv)
        (pv + cat.get_bonus) := by
  cases do_zero <;> cases do_max <;>
    simp [apply_challenge_opts, hb, Nat.max_def] <;>
    (split <;> split <;> omega)

theorem claim_C6_witness :
    apply_challenge_opts false false true ⟨5000, some 100⟩ 70 3 = 103 := by
  have h := claim_C6 false false ⟨5000, some 100⟩ 70 3 (by decide)
  exact h.trans (by decide)

/-! ## Claim C2: challenge-log size invariants -/

theorem length_packU32 (be : Bool) (n : Nat) : (packU32 be n).length = 4 := by
  cases be <;> simp [packU32, length_beBytes, length_toLE]

theorem length_packU16 (be : Bool) (n : Nat) : (packU16 be n).length = 2 := by
  cases be <;> simp [packU16, length_beBytes, length_toLE]

theorem length_packChallengeRec (be : Bool) (c : ChallengeRec) :
    (packChallengeRec be c).length = 12 := by
  cases be <;> simp [packChallengeRec, packU16, packU32, length_beBytes, length_toLE]

theorem length_packChallengeList (be : Bool) (l : List ChallengeRec) :
    (packChallengeList be l).length = 12 * l.length := by
  induction l with
  | nil => rfl
  | cons c rest ih =>
    simp only [packChallengeList, List.length_append, length_packChallengeRec, ih,
      List.length_cons]
    ring

theorem readU32_packU32 {n : Nat} (be : Bool) (rest : List Nat)
    (hn : n < 4294967296) : readU32 be (packU32 be n ++ rest) = n := by
  have hmod : n % 2 ^ (8 * 4) = n := Nat.mod_eq_of_lt (by norm_num; omega)
  cases be
  · show ofLE (List.take 4 (toLE 4 n ++ rest)) = n
    rw [List.take_left' (length_toLE 4 n), ofLE_toLE]
    exact hmod
  · show ofBE (List.take 4 (beBytes 4 n ++ rest)) = n
    rw [List.take_left' (length_beBytes 4 n), ofBE_beBytes]
    exact hmod

theorem readU16_packU16 {n : Nat} (be : Bool) (rest : List Nat)
    (hn : n < 65536) : readU16 be (packU16 be n ++ rest) = n := by
  have hmod : n % 2 ^ (8 * 2) = n := Nat.mod_eq_of_lt (by norm_num; omega)
  cases be
  · show ofLE (List.take 2 (toLE 2 n ++ rest)) = n
    rw [List.take_left' (length_toLE 2 n), ofLE_toLE]
    exact hmod
  · show ofBE (List.take 2 (beBytes 2 n ++ rest)) = n
    rw [List.take_left' (length_beBytes 2 n), ofBE_beBytes]
    exact hmod

/-- C2: for the challenge block built by wrap_challenges from n records the
header reports size_in_bytes = 12 * n + 2 and count = n and the block length
is size_in_bytes + 8; conversely unwrap_challenges returns an error for every
header-bearing input in which either size relation fails. -/
theorem claim_C2 :
    (∀ (be : Bool) (unknown : Nat) (chs : List ChallengeRec),
      12 * chs.length + 2 < 4294967296 → chs.length < 65536 →
        readU32 be ((wrap_challenges be unknown chs).drop 4) = 12 * chs.length + 2 ∧
        readU16 be ((wrap_challenges be unknown chs).drop 8) = chs.length ∧
        (wrap_challenges be unknown chs).length = (12 * chs.length + 2) + 8) ∧
    (∀ (be : Bool) (data : List Nat), 10 ≤ data.length →
      (data.length ≠ readU32 be (data.drop 4) + 8 ∨
        ((readU16 be (data.drop 8)) * 12 : Int) ≠ (readU32 be (data.drop 4) : Int) - 2) →
      ∃ msg, unwrap_challenges be data = Except.error msg) := by
  constructor
  · intro be unknown chs hsize hcount
    have hcomm : chs.length * 12 + 2 = 12 * chs.length + 2 := by ring
    have hdrop4 : (wrap_challenges be unknown chs).drop 4 =
        packU32 be (chs.length * 12 + 2) ++
          (packU16 be chs.length ++ packChallengeList be chs) := by
      rw [wrap_challenges, List.append_assoc, List.append_assoc,
        List.drop_left' (length_packU32 be unknown)]
    have hdrop8 : (wrap_challenges be unknown chs).drop 8 =
        packU16 be chs.length ++ packChallengeList be chs := by
      rw [wrap_challenges, List.append_assoc,
        show packU32 be unknown ++ packU32 be (chs.length * 12 + 2) ++
            (packU16 be chs.length ++ packChallengeList be chs) =
          (packU32 be unknown ++ packU32 be (chs.length * 12 + 2)) ++
            (packU16 be chs.length ++ packChallengeList be chs) from rfl,
        List.drop_left'
          (by rw [List.length_append, length_packU32, length_packU32])]
    refine ⟨?_, ?_, ?_⟩
    · rw [hdrop4, readU32_packU32 be _ (by omega)]
      exact hcomm
    · rw [hdrop8, readU16_packU16 be _ hcount]
    · rw [wrap_challenges]
      simp only [List.length_append, length_packU32, length_packU16,
        length_packChallengeList]
      ring
  · intro be data hlen hbad
    rw [unwrap_challenges, if_neg (by omega)]
    by_cases h1 : readU32 be (data.drop 4) + 8 ≠ data.length
    · rw [if_pos h1]
      exact ⟨_, rfl⟩
    · rw [if_neg h1]
      rcases hbad with hbad | hbad
      · exact absurd (by omega : readU32 be (data.drop 4) + 8 ≠ data.length) h1
      · rw [if_pos hbad]
        exact ⟨_, rfl⟩

theorem claim_C2_witness :
    readU32 false ((wrap_challenges false 4 [⟨123, 6, 1000, 1, 0⟩]).drop 4) = 14 ∧
      (wrap_challenges false 4 [⟨123, 6, 1000, 1, 0⟩]).length = 22 ∧
      ∃ msg, unwrap_challenges false (List.replicate 10 0) = Except.error msg := by
  have ha := claim_C2.1 false 4 [⟨123, 6, 1000, 1, 0⟩] (by decide) (by decide)
  have hb := claim_C2.2 false (List.replicate 10 0) (by decide) (Or.inl (by decide))
  exact ⟨ha.1.trans (by norm_num), ha.2.2.trans (by norm_num), hb⟩

end Borderlands
